import Mathlib

/-!
Verification of the `fastsst` Singular Spectrum Transformation library
(`fastsst/sst.py`) against its natural-language specification.

The source file is translated into a shallow embedding over `ℚ`:

* one-dimensional numpy arrays become `List ℚ`;
* dense matrices and vectors handed to the numeric collaborators become
  total functions `ℕ → ℕ → ℚ` and `ℕ → ℚ` (numpy arrays carry their shape
  at runtime; wherever the shape matters it is passed explicitly);
* the external numeric collaborators (`power_method`, `lanczos`,
  `eig_tridiag` from `fastsst.util.linear_algebra`, which is not part of
  the sources, and numpy's `svd`, `norm` and `random.rand`) are abstract
  parameters collected in a `Prims` structure, specified only through the
  contracts of spec section 6;
* Python `int` arithmetic is `ℤ`, Python slicing (including its clamping
  and negative-index semantics) is modelled explicitly, and operations
  that raise at run time return `Option`/`Except`.
-/

namespace SST

/-- Vectors handed to the numeric primitives: a numpy 1-d array modelled as a
total function; the relevant length is always passed alongside. -/
abbrev Vec : Type := ℕ → ℚ

/-- Dense matrices handed to the numeric primitives, modelled likewise. -/
abbrev Mat : Type := ℕ → ℕ → ℚ

/-- Normalisation of one endpoint of a Python slice `x[a:b]` against a list of
length `n`: negative indices count from the end and both ends are clamped into
`[0, n]`. -/
def pyBound (n : ℕ) (a : ℤ) : ℕ :=
  if a < 0 then ((n : ℤ) + a).toNat else min a.toNat n

/-- Python slice `x[a:b]` (step 1) with full CPython semantics. -/
def pySlice (x : List ℚ) (a b : ℤ) : List ℚ :=
  (x.drop (pyBound x.length a)).take (pyBound x.length b - pyBound x.length a)

/-- One column assignment `X[:, i] = x[(start-i):(end-i)]` of `_create_hankel`:
numpy accepts a right-hand side whose length equals the column length, or a
length-one right-hand side (broadcast); any other length raises. -/
def hankelCol (win : ℕ) (s : List ℚ) : Option (List ℚ) :=
  if s.length = win then some s
  else if s.length = 1 then some (List.replicate win s.headI)
  else none

/-- `_create_hankel(x, order, start, end)` from `fastsst/sst.py`.  The result
is the list of the `order` columns of the Hankel matrix (the matrix has shape
`(end - start, order)` and column `i` is `x[(start-i):(end-i)]`).  `none`
models the run-time errors: a negative dimension handed to `np.empty`, or a
column assignment whose right-hand side has an incompatible length. -/
def _create_hankel (x : List ℚ) (order start end_ : ℤ) : Option (List (List ℚ)) :=
  if order < 0 ∨ end_ < start then none
  else
    let win := (end_ - start).toNat
    let cols := (List.range order.toNat).map
      (fun i : ℕ => pySlice x (start - (i : ℤ)) (end_ - (i : ℤ)))
    if cols.all (fun c => c.length = win || c.length = 1) then
      some (cols.map (fun c => if c.length = win then c else List.replicate win c.headI))
    else none

/-- Dot product of two equal-length columns. -/
def dotL (a b : List ℚ) : ℚ := (List.zipWith (· * ·) a b).sum

/-- `X.T @ X` for a Hankel matrix given by its list of columns: entry `(j,k)`
is the dot product of columns `j` and `k`. -/
def corr (cols : List (List ℚ)) : Mat :=
  fun j k => dotL (cols.getD j []) (cols.getD k [])

/-- Dot product over the first `n` coordinates of two vectors. -/
def dotR (n : ℕ) (u v : Vec) : ℚ := ∑ i ∈ Finset.range n, u i * v i

/-- Abstract numeric collaborators.

Modelled from the spec: the module `fastsst.util.linear_algebra` providing
`power_method`, `lanczos` and `eig_tridiag` is imported by `fastsst/sst.py`
but is not among the sources, and numpy supplies `np.linalg.svd`,
`np.linalg.norm` and `np.random.rand`; spec section 6 specifies all of them
through input/output contracts only.  Each field takes the run-time shape of
its array arguments explicitly (a numpy array carries its shape; our
function-typed arrays do not).

* `powerMethod n A v k`: `power_method(A, v, n_iter=k)` on an `n × n` matrix;
  returns a triple of which the code only ever uses the first component, the
  approximate leading singular vector.
* `lanczos n A v r`: `lanczos(A, v, r)` on an `n × n` matrix, producing the
  `r × r` tridiagonal projection.
* `eigTridiag r T`: `eig_tridiag(T)` on an `r × r` tridiagonal matrix,
  returning `(eigenvalues, eigenvector matrix)`.
* `svd m n A`: `np.linalg.svd(A, full_matrices=False)` on an `m × n` matrix,
  returning `(U, s, Vt)`.
* `norm n v`: `np.linalg.norm` of a length-`n` vector.
* `rand k n`: the `k`-th draw of `np.random.rand(n)` from the (injectable)
  random stream, a length-`n` vector. -/
structure Prims where
  powerMethod : ℕ → Mat → Vec → ℕ → Vec × Vec × Vec
  lanczos : ℕ → Mat → Vec → ℤ → Mat
  eigTridiag : ℤ → Mat → Vec × Mat
  svd : ℕ → ℕ → Mat → Mat × Vec × Mat
  norm : ℕ → Vec → ℚ
  rand : ℕ → ℕ → Vec

/-- `v / np.linalg.norm(v)` for a length-`n` vector. -/
def normed (pr : Prims) (n : ℕ) (v : Vec) : Vec :=
  fun i => v i / pr.norm n v

/-- `_sst_lanczos(P_test, P_history, n_components, rank, x0)` from
`fastsst/sst.py`, on `n × n` correlation matrices: one power-method iteration
on `P_test` from `x0` gives `u`; Lanczos tridiagonalisation of `P_history`
seeded with `u` gives the `rank × rank` matrix `T`; after eigendecomposition
of `T` the score is `1 - (vec[0, :n_components] ** 2).sum()`, and `u` is
returned unchanged as the candidate seed.  The row slice `vec[0, :nc]` of the
length-`rank` row uses Python slice clamping. -/
def _sst_lanczos (pr : Prims) (n : ℕ) (Pt Ph : Mat) (nc rank : ℤ) (x0 : Vec) : ℚ × Vec :=
  let u := (pr.powerMethod n Pt x0 1).1
  let T := pr.lanczos n Ph u rank
  let vec := (pr.eigTridiag rank T).2
  (1 - ∑ j ∈ Finset.range (pyBound rank.toNat nc), (vec 0 j) ^ 2, u)

/-- `_sst_svd(P_test, P_history, n_components)` from `fastsst/sst.py`, on
`n × n` correlation matrices.  The numba signature `"f8(f8[:,:],f8[:,:],u1)"`
receives `n_components` as an unsigned 8-bit integer, so the value is reduced
modulo 256 on entry.  `U_test[:, :nc].T @ U_history[:, :nc]` is the
`k × k` cross matrix with `k = min nc n`; `none` models the out-of-bounds
access `s[0]` on the empty singular-value array of a `0 × 0` matrix. -/
def _sst_svd (pr : Prims) (n : ℕ) (Pt Ph : Mat) (nc : ℤ) : Option ℚ :=
  let ncu := (nc % 256).toNat
  let Ut := (pr.svd n n Pt).1
  let Uh := (pr.svd n n Ph).1
  let k := min ncu n
  let M : Mat := fun a b => ∑ r ∈ Finset.range n, Ut r a * Uh r b
  if k = 0 then none else some (1 - (pr.svd k k M).2.1 0)

/-- State threaded through the scan loop of `_score_offline`: the score array,
the current power-method seed `x0`, and how many draws have been taken from
the random stream so far. -/
structure ScanState where
  score : List ℚ
  x0 : Vec
  draws : ℕ

/-- Normalisation of a single Python index `l[i]` against length `n`:
negative indices count from the end, out-of-range indices raise. -/
def pyIdx (n : ℕ) (i : ℤ) : Option ℕ :=
  if 0 ≤ i ∧ i < (n : ℤ) then some i.toNat
  else if -(n : ℤ) ≤ i ∧ i < 0 then some (i + n).toNat
  else none

/-- One iteration of the `for t in range(start_idx, end_idx)` loop of
`_score_offline`: build the history and test Hankel matrices, form the
correlation matrices, store the strategy's score at `score[t-1]`, and on the
Lanczos path replace the seed by the normalised perturbed candidate. -/
def scanStep (pr : Prims) (x : List ℚ) (order win lag nc rank : ℤ) (eps : ℚ)
    (useLanczos : Bool) (st : ScanState) (t : ℤ) : Option ScanState := do
  let Xh ← _create_hankel x order (t - win - lag) (t - lag)
  let Xt ← _create_hankel x order (t - win) t
  let Ph := corr Xh
  let Pt := corr Xt
  let idx ← pyIdx st.score.length (t - 1)
  if useLanczos then
    let su := _sst_lanczos pr order.toNat Pt Ph nc rank st.x0
    let x1 := normed pr order.toNat (fun i => su.2 i + eps * pr.rand st.draws order.toNat i)
    pure ⟨st.score.set idx su.1, x1, st.draws + 1⟩
  else
    let sc ← _sst_svd pr order.toNat Pt Ph nc
    pure ⟨st.score.set idx sc, st.x0, st.draws⟩

/-- The list of loop indices `range(startIdx, startIdx + cnt)`. -/
def tList (startIdx : ℤ) (cnt : ℕ) : List ℤ :=
  (List.range cnt).map (fun j : ℕ => startIdx + (j : ℤ))

/-- `_score_offline(x, order, win_length, lag, n_components, rank, eps,
use_lanczos)` from `fastsst/sst.py`.  The scan runs `t` over
`range(start_idx, x.size + 1)` with `start_idx = win_length + order + lag + 1`
on a zero-initialised score array, threading the normalised random initial
seed, and returns the score array.  `none` models the run-time errors
(negative `order` handed to `np.random.rand`, or any error inside the loop
body). -/
def _score_offline (pr : Prims) (x : List ℚ) (order win lag nc rank : ℤ) (eps : ℚ)
    (useLanczos : Bool) : Option (List ℚ) :=
  if order < 0 then none
  else
    let startIdx := win + order + lag + 1
    let endIdx : ℤ := (x.length : ℤ) + 1
    let x0 := normed pr order.toNat (pr.rand 0 order.toNat)
    let init : ScanState := ⟨List.replicate x.length 0, x0, 1⟩
    ((tList startIdx (endIdx - startIdx).toNat).foldlM
        (scanStep pr x order win lag nc rank eps useLanczos) init).map ScanState.score

/-!
Spec-side reference definitions.  The following `spec…` definitions are
written from the words of the specification (sections 4.1 to 4.4), not from
the source; they exist to be compared with the source functions above in the
refinement theorems.
-/

/-- Spec 4.1 `HankelBuilder.build`: under the stated precondition (enough
history, slice fully inside the series), column `i` is the contiguous slice
`series[start-i : end-i]` of length `end - start`. -/
def specHankel (x : List ℚ) (order : ℕ) (start end_ : ℤ) : List (List ℚ) :=
  (List.range order).map
    (fun i : ℕ => (x.drop (start - (i : ℤ)).toNat).take (end_ - start).toNat)

/-- Spec 4.2 `SVDStrategy.compare`: the leading `nc` left singular vectors of
each `n × n` correlation matrix form `Utest` and `Uhist`; the score is `1 -
s0` where `s0` is the largest singular value of the `nc × nc` matrix
`Utest^T · Uhist`. -/
def specSvdCompare (pr : Prims) (n : ℕ) (Pt Ph : Mat) (nc : ℕ) : ℚ :=
  let Ut := (pr.svd n n Pt).1
  let Uh := (pr.svd n n Ph).1
  let M : Mat := fun a b => ∑ r ∈ Finset.range n, Ut r a * Uh r b
  1 - (pr.svd nc nc M).2.1 0

/-- Spec 4.3 `LanczosStrategy.compare`: one power iteration on `Ptest` from
the seed gives `u`; Lanczos tridiagonalisation of `Phist` seeded with `u`
gives the `rank × rank` matrix `T`; after eigendecomposition the score is
`1 - sum(vec[0, 0:nc]^2)`, and `u` is the candidate seed for the next index. -/
def specLanczosCompare (pr : Prims) (n : ℕ) (Pt Ph : Mat) (nc : ℕ) (rank : ℤ)
    (seed : Vec) : ℚ × Vec :=
  let u := (pr.powerMethod n Pt seed 1).1
  let T := pr.lanczos n Ph u rank
  let vec := (pr.eigTridiag rank T).2
  (1 - ∑ j ∈ Finset.range nc, (vec 0 j) ^ 2, u)

/-- Spec 4.4, one step of the `ScoreScanner` state machine at index `t`:
history Hankel matrix over `[t-windowLength-lag, t-lag)`, test Hankel matrix
over `[t-windowLength, t)`, correlation matrices by self-transpose products,
score stored at 0-based index `t-1`, and on the Lanczos path the seed
replaced by `normalize(u + eps · randomVector(order))`. -/
def specStep (pr : Prims) (x : List ℚ) (order win lag nc rank : ℤ) (eps : ℚ)
    (useLanczos : Bool) (st : ScanState) (t : ℤ) : ScanState :=
  let Xh := specHankel x order.toNat (t - win - lag) (t - lag)
  let Xt := specHankel x order.toNat (t - win) t
  let Ph := corr Xh
  let Pt := corr Xt
  if useLanczos then
    let su := specLanczosCompare pr order.toNat Pt Ph nc.toNat rank st.x0
    let x1 := normed pr order.toNat (fun i => su.2 i + eps * pr.rand st.draws order.toNat i)
    ⟨st.score.set (t - 1).toNat su.1, x1, st.draws + 1⟩
  else
    ⟨st.score.set (t - 1).toNat (specSvdCompare pr order.toNat Pt Ph nc.toNat), st.x0, st.draws⟩

/-- Spec 4.4 `ScoreScanner.scan`: a single linear pass of index `t` from
`startIdx = windowLength + order + lag + 1` to `N` inclusive over the
zero-initialised score sequence, with the seed initialised to a normalised
random vector before the scan. -/
def specScan (pr : Prims) (x : List ℚ) (order win lag nc rank : ℤ) (eps : ℚ)
    (useLanczos : Bool) : List ℚ :=
  let startIdx := win + order + lag + 1
  let x0 := normed pr order.toNat (pr.rand 0 order.toNat)
  let init : ScanState := ⟨List.replicate x.length 0, x0, 1⟩
  ((tList startIdx (((x.length : ℤ) + 1) - startIdx).toNat).foldl
      (specStep pr x order win lag nc rank eps useLanczos) init).score

/-!
The facade `SingularSpectrumTransformation.score_offline`: dynamically typed
hyperparameters, rule-of-thumb defaults, assertion-based validation, min-max
rescaling, and the call into the compiled core.
-/

/-- A dynamically typed numeric Python value: the hyperparameters may be
passed as `int` or `float`. -/
inductive PyScalar where
  | pyInt : ℤ → PyScalar
  | pyFloat : ℚ → PyScalar
deriving DecidableEq

/-- `isinstance(v, int)`. -/
def PyScalar.isInt : PyScalar → Bool
  | .pyInt _ => true
  | .pyFloat _ => false

/-- The underlying integer of a validated hyperparameter. -/
def PyScalar.toInt : PyScalar → ℤ
  | .pyInt n => n
  | .pyFloat _ => 0

/-- Python `v % 2` on a numeric value (floor-convention remainder). -/
def pyMod2 : PyScalar → PyScalar
  | .pyInt n => .pyInt (n % 2)
  | .pyFloat q => .pyFloat (q - 2 * (⌊q / 2⌋ : ℤ))

/-- Python `v == 0` on a numeric value (`0.0 == 0` is true). -/
def pyEqZero : PyScalar → Bool
  | .pyInt n => n = 0
  | .pyFloat q => q = 0

/-- Python `k * v` for an integer literal `k`. -/
def pyMulInt (k : ℤ) : PyScalar → PyScalar
  | .pyInt n => .pyInt (k * n)
  | .pyFloat q => .pyFloat (k * q)

/-- Python `v - k` for an integer literal `k`. -/
def pySubInt : PyScalar → ℤ → PyScalar
  | .pyInt n, k => .pyInt (n - k)
  | .pyFloat q, k => .pyFloat (q - k)

/-- Python `v // 2` (floor division; on a float the result is a float). -/
def pyHalf : PyScalar → PyScalar
  | .pyInt n => .pyInt (Int.fdiv n 2)
  | .pyFloat q => .pyFloat (⌊q / 2⌋ : ℤ)

/-- Constructor arguments of `SingularSpectrumTransformation`: `None` for
`order`, `lag` and `rank_lanczos` selects the rule-of-thumb default. -/
structure SSTConfig where
  win_length : PyScalar
  n_components : PyScalar
  order : Option PyScalar
  lag : Option PyScalar
  use_lanczos : Bool
  rank_lanczos : Option PyScalar
  eps : ℚ

/-- Default resolution `if self.order is None: self.order = self.win_length`. -/
def resolveOrder (c : SSTConfig) : PyScalar := c.order.getD c.win_length

/-- Default resolution `if self.lag is None: self.lag = self.order // 2`
(after `order` has been resolved). -/
def resolveLag (c : SSTConfig) : PyScalar := c.lag.getD (pyHalf (resolveOrder c))

/-- Default resolution of `rank_lanczos`: `2 * n_components` when
`n_components % 2 == 0`, else `2 * n_components - 1`. -/
def resolveRank (c : SSTConfig) : PyScalar :=
  c.rank_lanczos.getD
    (if pyEqZero (pyMod2 c.n_components) then pyMulInt 2 c.n_components
     else pySubInt (pyMulInt 2 c.n_components) 1)

/-- The argument of `score_offline`: a Python object that may or may not be a
numpy array, with its number of dimensions and (for the 1-d case) its data. -/
structure NpInput where
  isNdarray : Bool
  ndim : ℕ
  data : List ℚ

/-- The assertion block of `score_offline`: the input must be a 1-d numpy
array and the five integer hyperparameters (after default resolution) must
be Python `int`s. -/
def validArgs (c : SSTConfig) (x : NpInput) : Bool :=
  x.isNdarray && x.ndim == 1 && c.win_length.isInt && c.n_components.isInt &&
    (resolveOrder c).isInt && (resolveLag c).isInt && (resolveRank c).isInt

/-- `MinMaxScaler(feature_range=(1,2)).fit_transform`: affine rescaling of the
series into `[1, 2]`; sklearn replaces a zero data range by one.  (sklearn
additionally rejects an empty input; rescaling is out of the spec's scope and
is modelled totally.) -/
def minMaxScale (x : List ℚ) : List ℚ :=
  let mn := x.foldr min x.headI
  let mx := x.foldr max x.headI
  let den := if mx = mn then 1 else mx - mn
  x.map (fun v => 1 + (v - mn) / den)

/-- `SingularSpectrumTransformation.score_offline` from `fastsst/sst.py`:
resolve defaults, validate, rescale, and delegate to `_score_offline`.
`Except.error ()` is a failed assertion (an `InputValidationError`); the inner
`Option` is the core's own run-time behaviour. -/
def score_offline (pr : Prims) (c : SSTConfig) (x : NpInput) :
    Except Unit (Option (List ℚ)) :=
  if validArgs c x then
    .ok (_score_offline pr (minMaxScale x.data) (resolveOrder c).toInt
      c.win_length.toInt (resolveLag c).toInt c.n_components.toInt
      (resolveRank c).toInt c.eps c.use_lanczos)
  else .error ()

/-!
Contracts for the numeric collaborators, and concrete instances used to
evaluate the development on closed inputs.
-/

/-- The identity pattern `ℕ → ℕ → ℚ`, an orthonormal matrix of any size. -/
def idMat : Mat := fun i j => if i = j then 1 else 0

/-- Contract of the dense SVD primitive on the square calls made by
`_sst_svd` (spec section 6): the returned left singular vectors are
orthonormal columns, the leading singular value is nonnegative, and it is
attained as a bilinear value `u^T A v` at unit vectors (for a genuine SVD,
the leading left and right singular vectors). -/
def SvdContract (pr : Prims) : Prop :=
  ∀ (n : ℕ) (A : Mat), 0 < n →
    (∀ a b, a < n → b < n →
      dotR n (fun r => (pr.svd n n A).1 r a) (fun r => (pr.svd n n A).1 r b) =
        if a = b then 1 else 0) ∧
    0 ≤ (pr.svd n n A).2.1 0 ∧
    ∃ u v : Vec, dotR n u u = 1 ∧ dotR n v v = 1 ∧
      (pr.svd n n A).2.1 0 =
        ∑ a ∈ Finset.range n, ∑ b ∈ Finset.range n, u a * A a b * v b

/-- Contract of `eig_tridiag` (spec section 6): the eigenvector matrix of a
symmetric `r × r` tridiagonal matrix has orthonormal columns. -/
def EigContract (pr : Prims) : Prop :=
  ∀ (r : ℤ) (T : Mat) (a b : ℕ), a < r.toNat → b < r.toNat →
    dotR r.toNat (fun i => (pr.eigTridiag r T).2 i a)
        (fun i => (pr.eigTridiag r T).2 i b) = if a = b then 1 else 0

/-- The sign-adjusted first standard basis vector for a matrix `A`: a unit
vector `v` with `e0^T A v = |A 0 0|`. -/
def e0sign (A : Mat) : Vec :=
  fun i => if i = 0 then (if A 0 0 < 0 then -1 else 1) else 0

/-- A computable instance of the numeric collaborators satisfying
`SvdContract` and `EigContract`, used to evaluate the development on closed
inputs. -/
def demoPrims : Prims where
  powerMethod := fun _ _ v _ => (v, v, v)
  lanczos := fun _ _ _ _ => fun _ _ => 0
  eigTridiag := fun _ _ => (fun _ => 0, idMat)
  svd := fun _ _ A => (idMat, fun _ => if A 0 0 < 0 then -(A 0 0) else A 0 0, idMat)
  norm := fun _ _ => 1
  rand := fun _ _ _ => 1

/-- An instance of the numeric collaborators whose SVD reports the dimension
it was called with as its leading singular value; it separates a call on a
`44 × 44` cross matrix from a call on a `300 × 300` one. -/
def dimPrims : Prims where
  powerMethod := fun _ _ v _ => (v, v, v)
  lanczos := fun _ _ _ _ => fun _ _ => 0
  eigTridiag := fun _ _ => (fun _ => 0, idMat)
  svd := fun m _ _ => (idMat, fun _ => (m : ℚ), idMat)
  norm := fun _ _ => 1
  rand := fun _ _ _ => 1

/-! Lemmas about Python slicing and the Hankel builder. -/

theorem pyBound_eq_toNat (n : ℕ) (a : ℤ) (h0 : 0 ≤ a) (hn : a ≤ (n : ℤ)) :
    pyBound n a = a.toNat := by
  unfold pyBound; split <;> omega

theorem pySlice_eq_clean (x : List ℚ) (a b : ℤ) (h0 : 0 ≤ a) (hab : a ≤ b)
    (hb : b ≤ (x.length : ℤ)) :
    pySlice x a b = (x.drop a.toNat).take (b - a).toNat := by
  unfold pySlice
  rw [pyBound_eq_toNat x.length a h0 (by omega), pyBound_eq_toNat x.length b (by omega) hb]
  congr 1
  omega

theorem pySlice_clean_length (x : List ℚ) (a b : ℤ) (h0 : 0 ≤ a) (hab : a ≤ b)
    (hb : b ≤ (x.length : ℤ)) :
    (pySlice x a b).length = (b - a).toNat := by
  rw [pySlice_eq_clean x a b h0 hab hb]
  rw [List.length_take, List.length_drop]
  omega

theorem hankel_eq_spec (x : List ℚ) (order start end_ : ℤ)
    (h0 : 0 ≤ order) (h1 : order ≤ start + 1) (h2 : start ≤ end_)
    (h3 : end_ ≤ (x.length : ℤ)) :
    _create_hankel x order start end_ = some (specHankel x order.toNat start end_) := by
  have hcol : ∀ i : ℕ, i < order.toNat →
      pySlice x (start - i) (end_ - i) =
        (x.drop (start - i).toNat).take (end_ - start).toNat := by
    intro i hi
    rw [pySlice_eq_clean x (start - i) (end_ - i) (by omega) (by omega) (by omega)]
    congr 1
    omega
  have hlen : ∀ i : ℕ, i < order.toNat →
      (pySlice x (start - i) (end_ - i)).length = (end_ - start).toNat := by
    intro i hi
    rw [pySlice_clean_length x (start - i) (end_ - i) (by omega) (by omega) (by omega)]
    omega
  simp only [_create_hankel]
  rw [if_neg (by omega)]
  have hall : ((List.range order.toNat).map
      (fun i : ℕ => pySlice x (start - (i : ℤ)) (end_ - (i : ℤ)))).all
        (fun c => c.length = (end_ - start).toNat || c.length = 1) = true := by
    rw [List.all_eq_true]
    intro c hc
    rw [List.mem_map] at hc
    obtain ⟨i, hi, rfl⟩ := hc
    rw [List.mem_range] at hi
    simp [hlen i hi]
  rw [if_pos hall]
  congr 1
  rw [List.map_map]
  unfold specHankel
  apply List.map_congr_left
  intro i hi
  rw [List.mem_range] at hi
  simp only [Function.comp_apply]
  rw [if_pos (hlen i hi), hcol i hi]

/-! Lemmas about the scan loop. -/

theorem mem_tList (s : ℤ) (N : ℕ) (t : ℤ) :
    t ∈ tList s (((N : ℤ) + 1 - s).toNat) ↔ s ≤ t ∧ t ≤ (N : ℤ) := by
  unfold tList
  simp only [List.mem_map, List.mem_range]
  constructor
  · rintro ⟨j, hj, rfl⟩
    omega
  · intro h
    exact ⟨(t - s).toNat, by omega, by omega⟩

theorem foldlM_eq_foldl_of_inv {σ : Type} (I : σ → Prop)
    (f : σ → ℤ → Option σ) (g : σ → ℤ → σ) (l : List ℤ)
    (hg : ∀ st t, t ∈ l → I st → I (g st t))
    (hfg : ∀ st t, t ∈ l → I st → f st t = some (g st t)) :
    ∀ st, I st → l.foldlM f st = some (l.foldl g st) := by
  induction l with
  | nil =>
    intro st _
    rfl
  | cons a as ih =>
    intro st hst
    rw [List.foldlM_cons, hfg st a (List.mem_cons_self a as) hst]
    rw [List.foldl_cons]
    simp only [Option.bind_eq_bind, Option.some_bind]
    exact ih (fun st' t ht => hg st' t (List.mem_cons_of_mem a ht))
      (fun st' t ht => hfg st' t (List.mem_cons_of_mem a ht))
      (g st a) (hg st a (List.mem_cons_self a as) hst)

theorem specStep_score_length (pr : Prims) (x : List ℚ) (order win lag nc rank : ℤ)
    (eps : ℚ) (ul : Bool) (st : ScanState) (t : ℤ) :
    (specStep pr x order win lag nc rank eps ul st t).score.length = st.score.length := by
  unfold specStep
  dsimp only
  split <;> simp [List.length_set]

theorem sst_svd_eq_spec (pr : Prims) (n : ℕ) (Pt Ph : Mat) (nc : ℤ)
    (h1 : 1 ≤ nc) (h2 : nc ≤ 255) (h3 : nc.toNat ≤ n) :
    _sst_svd pr n Pt Ph nc = some (specSvdCompare pr n Pt Ph nc.toNat) := by
  unfold _sst_svd specSvdCompare
  have hk : min (nc % 256).toNat n = nc.toNat := by omega
  dsimp only
  rw [hk, if_neg (by omega)]

theorem sst_lanczos_eq_spec (pr : Prims) (n : ℕ) (Pt Ph : Mat) (nc rank : ℤ)
    (x0 : Vec) (h1 : 0 ≤ nc) (h2 : nc ≤ rank) :
    _sst_lanczos pr n Pt Ph nc rank x0 = specLanczosCompare pr n Pt Ph nc.toNat rank x0 := by
  unfold _sst_lanczos specLanczosCompare
  have hb : pyBound rank.toNat nc = nc.toNat := by
    unfold pyBound; split <;> omega
  rw [hb]

theorem scanStep_eq_specStep (pr : Prims) (x : List ℚ) (order win lag nc rank : ℤ)
    (eps : ℚ) (ul : Bool) (st : ScanState) (t : ℤ)
    (hord : 0 ≤ order) (hwin : 0 ≤ win) (hlag : 0 ≤ lag)
    (ht1 : win + order + lag + 1 ≤ t) (ht2 : t ≤ (x.length : ℤ))
    (hlen : st.score.length = x.length)
    (hlan : ul = true → 0 ≤ nc ∧ nc ≤ rank)
    (hsvd : ul = false → 1 ≤ nc ∧ nc ≤ 255 ∧ nc ≤ order) :
    scanStep pr x order win lag nc rank eps ul st t =
      some (specStep pr x order win lag nc rank eps ul st t) := by
  have hh := hankel_eq_spec x order (t - win - lag) (t - lag) hord (by omega) (by omega)
    (by omega)
  have ht := hankel_eq_spec x order (t - win) t hord (by omega) (by omega) (by omega)
  have hidx : pyIdx st.score.length (t - 1) = some (t - 1).toNat := by
    unfold pyIdx
    rw [if_pos (by rw [hlen]; omega)]
  unfold scanStep specStep
  rw [hh, ht, hidx]
  simp only [Option.bind_eq_bind, Option.some_bind]
  cases ul with
  | false =>
    rw [sst_svd_eq_spec pr order.toNat (corr (specHankel x order.toNat (t - win) t))
      (corr (specHankel x order.toNat (t - win - lag) (t - lag))) nc
      (hsvd rfl).1 (hsvd rfl).2.1 (by have := (hsvd rfl).2.2; omega)]
    simp
  | true =>
    rw [sst_lanczos_eq_spec pr order.toNat (corr (specHankel x order.toNat (t - win) t))
      (corr (specHankel x order.toNat (t - win - lag) (t - lag))) nc rank st.x0
      (hlan rfl).1 (hlan rfl).2]
    simp

theorem score_offline_eq_specScan (pr : Prims) (x : List ℚ) (order win lag nc rank : ℤ)
    (eps : ℚ) (ul : Bool)
    (hord : 0 ≤ order) (hwin : 0 ≤ win) (hlag : 0 ≤ lag)
    (hlan : ul = true → 0 ≤ nc ∧ nc ≤ rank)
    (hsvd : ul = false → 1 ≤ nc ∧ nc ≤ 255 ∧ nc ≤ order) :
    _score_offline pr x order win lag nc rank eps ul =
      some (specScan pr x order win lag nc rank eps ul) := by
  unfold _score_offline specScan
  rw [if_neg (by omega)]
  dsimp only
  rw [foldlM_eq_foldl_of_inv (fun st => st.score.length = x.length)
    (scanStep pr x order win lag nc rank eps ul)
    (specStep pr x order win lag nc rank eps ul)
    (tList (win + order + lag + 1) (((x.length : ℤ) + 1 - (win + order + lag + 1)).toNat))
    (fun st t _ hst => by
      show (specStep pr x order win lag nc rank eps ul st t).score.length = x.length
      rw [specStep_score_length]
      exact hst)
    (fun st t htm hst => by
      rw [mem_tList] at htm
      exact scanStep_eq_specStep pr x order win lag nc rank eps ul st t hord hwin hlag
        (by omega) (by omega) hst hlan hsvd)
    ⟨List.replicate x.length 0, _, 1⟩ (by simp)]
  rfl

theorem specStep_score_set (pr : Prims) (x : List ℚ) (order win lag nc rank : ℤ)
    (eps : ℚ) (ul : Bool) (st : ScanState) (t : ℤ) :
    ∃ v, (specStep pr x order win lag nc rank eps ul st t).score =
      st.score.set (t - 1).toNat v := by
  unfold specStep
  dsimp only
  split
  · exact ⟨_, rfl⟩
  · exact ⟨_, rfl⟩

theorem foldl_specStep_length (pr : Prims) (x : List ℚ) (order win lag nc rank : ℤ)
    (eps : ℚ) (ul : Bool) :
    ∀ (l : List ℤ) (st : ScanState),
      ((l.foldl (specStep pr x order win lag nc rank eps ul) st).score).length =
        st.score.length := by
  intro l
  induction l with
  | nil => intro st; rfl
  | cons a as ih =>
    intro st
    rw [List.foldl_cons, ih, specStep_score_length]

theorem foldl_specStep_early (pr : Prims) (x : List ℚ) (order win lag nc rank : ℤ)
    (eps : ℚ) (ul : Bool) (lo : ℤ) :
    ∀ (l : List ℤ) (st : ScanState), (∀ t ∈ l, lo ≤ t) → ∀ i : ℕ, (i : ℤ) < lo - 1 →
      ((l.foldl (specStep pr x order win lag nc rank eps ul) st).score)[i]? =
        st.score[i]? := by
  intro l
  induction l with
  | nil =>
    intro st _ i _
    rfl
  | cons a as ih =>
    intro st hmem i hi
    rw [List.foldl_cons, ih _ (fun t ht => hmem t (List.mem_cons_of_mem a ht)) i hi]
    obtain ⟨v, hv⟩ := specStep_score_set pr x order win lag nc rank eps ul st a
    rw [hv, List.getElem?_set_ne]
    have := hmem a (List.mem_cons_self a as)
    omega

theorem specScan_length (pr : Prims) (x : List ℚ) (order win lag nc rank : ℤ)
    (eps : ℚ) (ul : Bool) :
    (specScan pr x order win lag nc rank eps ul).length = x.length := by
  unfold specScan
  dsimp only
  rw [foldl_specStep_length]
  exact List.length_replicate x.length 0

theorem specScan_early_zero (pr : Prims) (x : List ℚ) (order win lag nc rank : ℤ)
    (eps : ℚ) (ul : Bool) (i : ℕ)
    (hi : (i : ℤ) < win + order + lag) (hiN : i < x.length) :
    (specScan pr x order win lag nc rank eps ul)[i]? = some 0 := by
  unfold specScan
  dsimp only
  rw [foldl_specStep_early pr x order win lag nc rank eps ul (win + order + lag + 1)
    _ _ (fun t ht => ((mem_tList _ x.length t).mp ht).1) i (by omega)]
  rw [List.getElem?_replicate, if_pos hiN]

theorem specScan_all_zero (pr : Prims) (x : List ℚ) (order win lag nc rank : ℤ)
    (eps : ℚ) (ul : Bool) (h : (x.length : ℤ) + 1 < win + order + lag + 1) :
    specScan pr x order win lag nc rank eps ul = List.replicate x.length 0 := by
  unfold specScan
  dsimp only
  have h0 : (((x.length : ℤ) + 1) - (win + order + lag + 1)).toNat = 0 := by omega
  rw [h0]
  rfl

/-! The score-range argument: Cauchy-Schwarz and orthonormality lemmas. -/

theorem dotR_self_eq_sumsq (n : ℕ) (u : Vec) :
    dotR n u u = ∑ i ∈ Finset.range n, u i ^ 2 := by
  unfold dotR
  exact Finset.sum_congr rfl (fun i _ => (sq (u i)).symm)

theorem bilinear_to_dot (n k : ℕ) (Ut Uh : Mat) (u v : Vec) :
    ∑ a ∈ Finset.range k, ∑ b ∈ Finset.range k,
        u a * (∑ r ∈ Finset.range n, Ut r a * Uh r b) * v b =
      ∑ r ∈ Finset.range n,
        (∑ a ∈ Finset.range k, Ut r a * u a) * (∑ b ∈ Finset.range k, Uh r b * v b) := by
  have lhs : ∀ a b : ℕ, u a * (∑ r ∈ Finset.range n, Ut r a * Uh r b) * v b =
      ∑ r ∈ Finset.range n, u a * (Ut r a * Uh r b) * v b := by
    intro a b
    rw [Finset.mul_sum, Finset.sum_mul]
  have rhs : ∀ r : ℕ,
      (∑ a ∈ Finset.range k, Ut r a * u a) * (∑ b ∈ Finset.range k, Uh r b * v b) =
        ∑ a ∈ Finset.range k, ∑ b ∈ Finset.range k, (Ut r a * u a) * (Uh r b * v b) :=
    fun r => Finset.sum_mul_sum _ _ _ _
  rw [Finset.sum_congr rfl (fun r _ => rhs r)]
  rw [Finset.sum_congr rfl (fun a _ => Finset.sum_congr rfl (fun b _ => lhs a b))]
  rw [Finset.sum_congr rfl
    (fun a _ => Finset.sum_comm (s := Finset.range k) (t := Finset.range n))]
  rw [Finset.sum_comm (s := Finset.range k) (t := Finset.range n)]
  exact Finset.sum_congr rfl (fun r _ => Finset.sum_congr rfl (fun a _ =>
    Finset.sum_congr rfl (fun b _ => by ring)))

theorem dot_proj_self (n k : ℕ) (U : Mat) (u : Vec) (hk : k ≤ n)
    (horth : ∀ a b, a < n → b < n →
      dotR n (fun r => U r a) (fun r => U r b) = if a = b then 1 else 0)
    (hu : ∑ a ∈ Finset.range k, u a ^ 2 = 1) :
    ∑ r ∈ Finset.range n, (∑ a ∈ Finset.range k, U r a * u a) ^ 2 = 1 := by
  have expand : ∀ r : ℕ, (∑ a ∈ Finset.range k, U r a * u a) ^ 2 =
      ∑ a ∈ Finset.range k, ∑ b ∈ Finset.range k, (U r a * u a) * (U r b * u b) := by
    intro r
    rw [sq]
    exact Finset.sum_mul_sum _ _ _ _
  rw [Finset.sum_congr rfl (fun r _ => expand r)]
  rw [Finset.sum_comm (s := Finset.range n) (t := Finset.range k)]
  rw [Finset.sum_congr rfl
    (fun a _ => Finset.sum_comm (s := Finset.range n) (t := Finset.range k))]
  have inner : ∀ a ∈ Finset.range k,
      ∑ b ∈ Finset.range k, ∑ r ∈ Finset.range n, (U r a * u a) * (U r b * u b) =
        u a ^ 2 := by
    intro a ha
    rw [Finset.mem_range] at ha
    have hterm : ∀ b ∈ Finset.range k,
        ∑ r ∈ Finset.range n, (U r a * u a) * (U r b * u b) =
          u a * u b * (if a = b then 1 else 0) := by
      intro b hb
      rw [Finset.mem_range] at hb
      rw [← horth a b (by omega) (by omega)]
      unfold dotR
      rw [Finset.mul_sum]
      exact Finset.sum_congr rfl (fun r _ => by ring)
    rw [Finset.sum_congr rfl hterm]
    rw [Finset.sum_eq_single_of_mem a (Finset.mem_range.mpr ha)
      (fun b _ hb => by rw [if_neg (fun h => hb h.symm), mul_zero])]
    rw [if_pos rfl, mul_one, sq]
  rw [Finset.sum_congr rfl inner]
  exact hu

theorem row0_sumsq (R : ℕ) (hR : 0 < R) (V : Mat)
    (h : ∀ a b, a < R → b < R →
      dotR R (fun i => V i a) (fun i => V i b) = if a = b then 1 else 0) :
    ∑ j ∈ Finset.range R, V 0 j ^ 2 = 1 := by
  set W : Matrix (Fin R) (Fin R) ℚ := Matrix.of (fun i j : Fin R => V i.val j.val) with hW
  have hMt : W.transpose * W = 1 := by
    ext a b
    rw [Matrix.mul_apply, Matrix.one_apply]
    have he : ∀ i : Fin R, W.transpose a i * W i b = V i.val a.val * V i.val b.val :=
      fun i => rfl
    rw [Finset.sum_congr rfl (fun i _ => he i)]
    rw [Fin.sum_univ_eq_sum_range (fun i => V i a.val * V i b.val) R]
    rw [← dotR, h a.val b.val a.isLt b.isLt]
    by_cases hab : a = b
    · rw [if_pos (congrArg Fin.val hab), if_pos hab]
    · rw [if_neg (fun hv => hab (Fin.ext hv)), if_neg hab]
  have hM := Matrix.mul_eq_one_comm.mp hMt
  have h00 := congrFun (congrFun hM ⟨0, hR⟩) ⟨0, hR⟩
  rw [Matrix.mul_apply, Matrix.one_apply, if_pos rfl] at h00
  have he : ∀ i : Fin R, W ⟨0, hR⟩ i * W.transpose i ⟨0, hR⟩ = V 0 i.val * V 0 i.val :=
    fun i => rfl
  rw [Finset.sum_congr rfl (fun i _ => he i)] at h00
  rw [Fin.sum_univ_eq_sum_range (fun i => V 0 i * V 0 i) R] at h00
  rw [← h00]
  exact Finset.sum_congr rfl (fun i _ => sq (V 0 i))

theorem sst_svd_bounds (pr : Prims) (hc : SvdContract pr) (n : ℕ) (Pt Ph : Mat)
    (nc : ℤ) (sc : ℚ) (h : _sst_svd pr n Pt Ph nc = some sc) : 0 ≤ sc ∧ sc ≤ 1 := by
  unfold _sst_svd at h
  dsimp only at h
  by_cases hk : min (nc % 256).toNat n = 0
  · rw [if_pos hk] at h
    exact absurd h (by simp)
  · rw [if_neg hk] at h
    set k := min (nc % 256).toNat n with hkdef
    set Ut := (pr.svd n n Pt).1 with hUtdef
    set Uh := (pr.svd n n Ph).1 with hUhdef
    set M : Mat := fun a b => ∑ r ∈ Finset.range n, Ut r a * Uh r b with hMdef
    have hsc : sc = 1 - (pr.svd k k M).2.1 0 := (Option.some_inj.mp h).symm
    obtain ⟨-, hs0, u, v, hu, hv, hs⟩ := hc k M (by omega)
    obtain ⟨hUt, -, -⟩ := hc n Pt (by omega)
    obtain ⟨hUh, -, -⟩ := hc n Ph (by omega)
    have hsdot : (pr.svd k k M).2.1 0 =
        ∑ r ∈ Finset.range n,
          (∑ a ∈ Finset.range k, Ut r a * u a) * (∑ b ∈ Finset.range k, Uh r b * v b) := by
      rw [hs, ← bilinear_to_dot n k Ut Uh u v]
    have hp : ∑ r ∈ Finset.range n, (∑ a ∈ Finset.range k, Ut r a * u a) ^ 2 = 1 :=
      dot_proj_self n k Ut u (by omega) hUt (by rw [← dotR_self_eq_sumsq]; exact hu)
    have hq : ∑ r ∈ Finset.range n, (∑ b ∈ Finset.range k, Uh r b * v b) ^ 2 = 1 :=
      dot_proj_self n k Uh v (by omega) hUh (by rw [← dotR_self_eq_sumsq]; exact hv)
    have hcs := Finset.sum_mul_sq_le_sq_mul_sq (Finset.range n)
      (fun r => ∑ a ∈ Finset.range k, Ut r a * u a)
      (fun r => ∑ b ∈ Finset.range k, Uh r b * v b)
    rw [hp, hq, one_mul, ← hsdot] at hcs
    constructor
    · rw [hsc]
      nlinarith [hs0]
    · rw [hsc]
      linarith [hs0]

theorem sst_lanczos_bounds (pr : Prims) (he : EigContract pr) (n : ℕ) (Pt Ph : Mat)
    (nc rank : ℤ) (x0 : Vec) :
    0 ≤ (_sst_lanczos pr n Pt Ph nc rank x0).1 ∧
      (_sst_lanczos pr n Pt Ph nc rank x0).1 ≤ 1 := by
  unfold _sst_lanczos
  dsimp only
  set V := (pr.eigTridiag rank (pr.lanczos n Ph (pr.powerMethod n Pt x0 1).1 rank)).2
    with hV
  have hble : pyBound rank.toNat nc ≤ rank.toNat := by
    unfold pyBound
    split <;> omega
  have hnn : 0 ≤ ∑ j ∈ Finset.range (pyBound rank.toNat nc), V 0 j ^ 2 :=
    Finset.sum_nonneg (fun j _ => sq_nonneg _)
  have hle1 : ∑ j ∈ Finset.range (pyBound rank.toNat nc), V 0 j ^ 2 ≤ 1 := by
    rcases Nat.eq_zero_or_pos rank.toNat with h0 | hpos
    · have hz : pyBound rank.toNat nc = 0 := by omega
      rw [hz]
      simp
    · calc ∑ j ∈ Finset.range (pyBound rank.toNat nc), V 0 j ^ 2
          ≤ ∑ j ∈ Finset.range rank.toNat, V 0 j ^ 2 :=
            Finset.sum_le_sum_of_subset_of_nonneg (Finset.range_subset.mpr hble)
              (fun j _ _ => sq_nonneg _)
        _ = 1 := row0_sumsq rank.toNat hpos V
            (fun a b ha hb => he rank _ a b ha hb)
  constructor
  · linarith
  · linarith

theorem scanStep_bounds (pr : Prims) (hc : SvdContract pr) (he : EigContract pr)
    (x : List ℚ) (order win lag nc rank : ℤ) (eps : ℚ) (ul : Bool)
    (st st' : ScanState) (t : ℤ)
    (hst : ∀ v ∈ st.score, 0 ≤ v ∧ v ≤ 1)
    (h : scanStep pr x order win lag nc rank eps ul st t = some st') :
    ∀ v ∈ st'.score, 0 ≤ v ∧ v ≤ 1 := by
  unfold scanStep at h
  simp only [Option.bind_eq_bind, Option.bind_eq_some] at h
  obtain ⟨Xh, hXh, h⟩ := h
  obtain ⟨Xt, hXt, h⟩ := h
  obtain ⟨idx, hidx, h⟩ := h
  cases ul with
  | true =>
    rw [if_pos rfl] at h
    simp only [Option.pure_def, Option.some_inj] at h
    subst h
    intro v hv
    rcases List.mem_or_eq_of_mem_set hv with hv' | hv'
    · exact hst v hv'
    · subst hv'
      exact sst_lanczos_bounds pr he order.toNat (corr Xt) (corr Xh) nc rank st.x0
  | false =>
    rw [if_neg (by simp)] at h
    simp only [Option.bind_eq_bind, Option.bind_eq_some] at h
    obtain ⟨sc, hsc, h⟩ := h
    simp only [Option.pure_def, Option.some_inj] at h
    subst h
    intro v hv
    rcases List.mem_or_eq_of_mem_set hv with hv' | hv'
    · exact hst v hv'
    · subst hv'
      exact sst_svd_bounds pr hc order.toNat (corr Xt) (corr Xh) nc v hsc

theorem foldlM_scanStep_bounds (pr : Prims) (hc : SvdContract pr) (he : EigContract pr)
    (x : List ℚ) (order win lag nc rank : ℤ) (eps : ℚ) (ul : Bool) :
    ∀ (l : List ℤ) (st st' : ScanState), (∀ v ∈ st.score, 0 ≤ v ∧ v ≤ 1) →
      l.foldlM (scanStep pr x order win lag nc rank eps ul) st = some st' →
      ∀ v ∈ st'.score, 0 ≤ v ∧ v ≤ 1 := by
  intro l
  induction l with
  | nil =>
    intro st st' hst h
    simp only [List.foldlM_nil, Option.pure_def, Option.some_inj] at h
    exact h ▸ hst
  | cons a as ih =>
    intro st st' hst h
    rw [List.foldlM_cons] at h
    simp only [Option.bind_eq_bind, Option.bind_eq_some] at h
    obtain ⟨st1, h1, h2⟩ := h
    exact ih st1 st'
      (scanStep_bounds pr hc he x order win lag nc rank eps ul st st1 a hst h1) h2

theorem score_offline_bounds (pr : Prims) (hc : SvdContract pr) (he : EigContract pr)
    (x : List ℚ) (order win lag nc rank : ℤ) (eps : ℚ) (ul : Bool) (s : List ℚ)
    (h : _score_offline pr x order win lag nc rank eps ul = some s) :
    ∀ v ∈ s, 0 ≤ v ∧ v ≤ 1 := by
  unfold _score_offline at h
  by_cases hord : order < 0
  · rw [if_pos hord] at h
    exact absurd h (by simp)
  · rw [if_neg hord] at h
    dsimp only at h
    rw [Option.map_eq_some'] at h
    obtain ⟨st', hfold, hsc⟩ := h
    subst hsc
    refine foldlM_scanStep_bounds pr hc he x order win lag nc rank eps ul _ _ st'
      (fun v hv => ?_) hfold
    rw [List.mem_replicate] at hv
    rw [hv.2]
    exact ⟨le_refl 0, by norm_num⟩

theorem idMat_orth (n a b : ℕ) (ha : a < n) (_hb : b < n) :
    dotR n (fun r => idMat r a) (fun r => idMat r b) = if a = b then 1 else 0 := by
  unfold dotR idMat
  have hterm : ∀ r : ℕ, (if r = a then (1 : ℚ) else 0) * (if r = b then 1 else 0) =
      if r = a then (if a = b then 1 else 0) else 0 := by
    intro r
    by_cases h1 : r = a
    · subst h1
      by_cases h2 : r = b <;> simp [h2]
    · simp [h1]
  rw [Finset.sum_congr rfl (fun r _ => hterm r)]
  rw [Finset.sum_ite_eq' (Finset.range n) a (fun _ => if a = b then (1 : ℚ) else 0)]
  rw [if_pos (Finset.mem_range.mpr ha)]

theorem demoPrims_svd_contract : SvdContract demoPrims := by
  intro n A hn
  refine ⟨fun a b ha hb => idMat_orth n a b ha hb, ?_, ?_⟩
  · show (0 : ℚ) ≤ if A 0 0 < 0 then -(A 0 0) else A 0 0
    split <;> linarith
  · refine ⟨fun i => idMat i 0, e0sign A, ?_, ?_, ?_⟩
    · have h := idMat_orth n 0 0 hn hn
      rw [if_pos rfl] at h
      exact h
    · unfold dotR e0sign
      have hterm : ∀ i : ℕ,
          (if i = 0 then (if A 0 0 < 0 then (-1 : ℚ) else 1) else 0) *
            (if i = 0 then (if A 0 0 < 0 then (-1 : ℚ) else 1) else 0) =
          if i = 0 then 1 else 0 := by
        intro i
        by_cases h1 : i = 0
        · simp only [if_pos h1]
          split <;> norm_num
        · simp only [if_neg h1, mul_zero]
      rw [Finset.sum_congr rfl (fun i _ => hterm i)]
      rw [Finset.sum_ite_eq' (Finset.range n) 0 (fun _ => (1 : ℚ))]
      rw [if_pos (Finset.mem_range.mpr hn)]
    · show (if A 0 0 < 0 then -(A 0 0) else A 0 0) =
        ∑ a ∈ Finset.range n, ∑ b ∈ Finset.range n, idMat a 0 * A a b * e0sign A b
      have houter : ∀ a ∈ Finset.range n, a ≠ 0 →
          ∑ b ∈ Finset.range n, idMat a 0 * A a b * e0sign A b = 0 := by
        intro a _ ha
        refine Finset.sum_eq_zero (fun b _ => ?_)
        unfold idMat
        rw [if_neg ha, zero_mul, zero_mul]
      rw [Finset.sum_eq_single_of_mem 0 (Finset.mem_range.mpr hn) houter]
      have hinner : ∀ b ∈ Finset.range n, b ≠ 0 →
          idMat 0 0 * A 0 b * e0sign A b = 0 := by
        intro b _ hb
        unfold e0sign
        rw [if_neg hb, mul_zero]
      rw [Finset.sum_eq_single_of_mem 0 (Finset.mem_range.mpr hn) hinner]
      unfold idMat e0sign
      rw [if_pos rfl, if_pos rfl, one_mul]
      split <;> ring

theorem demoPrims_eig_contract : EigContract demoPrims := by
  intro r T a b ha hb
  exact idMat_orth r.toNat a b ha hb

/-! Lemmas about the facade. -/

theorem validArgs_iff (c : SSTConfig) (x : NpInput) :
    validArgs c x = true ↔
      (x.isNdarray = true ∧ x.ndim = 1 ∧ c.win_length.isInt = true ∧
        c.n_components.isInt = true ∧ (resolveOrder c).isInt = true ∧
        (resolveLag c).isInt = true ∧ (resolveRank c).isInt = true) := by
  unfold validArgs
  simp only [Bool.and_eq_true, beq_iff_eq]
  tauto

/-! Claim theorems. -/

/-- C1: for valid inputs and hyperparameters, the offline scan iterates `t`
from `startIdx = windowLength + order + lag + 1` to `N` inclusive, and at each
`t` builds the history Hankel matrix over `[t-windowLength-lag, t-lag)` and
the test Hankel matrix over `[t-windowLength, t)`, forms the correlation
matrices by self-transpose products, stores the strategy's score at 0-based
index `t-1`, and on the Lanczos path replaces the seed by
`normalize(u + eps * randomVector(order))` with `u` the candidate seed from
the Lanczos strategy at that index: the source `_score_offline` computes
exactly the spec's `ScoreScanner` state machine `specScan`, whose loop body
`specStep` is written from those very clauses. -/
theorem c1_scan_refines_spec (pr : Prims) (x : List ℚ) (order win lag nc rank : ℤ)
    (eps : ℚ) (ul : Bool)
    (hord : 0 ≤ order) (hwin : 0 ≤ win) (hlag : 0 ≤ lag)
    (hlan : ul = true → 0 ≤ nc ∧ nc ≤ rank)
    (hsvd : ul = false → 1 ≤ nc ∧ nc ≤ 255 ∧ nc ≤ order) :
    (∀ t : ℤ, t ∈ tList (win + order + lag + 1)
        (((x.length : ℤ) + 1 - (win + order + lag + 1)).toNat) ↔
      win + order + lag + 1 ≤ t ∧ t ≤ (x.length : ℤ)) ∧
    _score_offline pr x order win lag nc rank eps ul =
      some (specScan pr x order win lag nc rank eps ul) :=
  ⟨fun t => mem_tList (win + order + lag + 1) x.length t,
   score_offline_eq_specScan pr x order win lag nc rank eps ul hord hwin hlag hlan hsvd⟩

/-- C1 witness: the refinement evaluated at a concrete series and
hyperparameter assignment. -/
theorem c1_scan_refines_spec_witness :
    _score_offline demoPrims [1, 2, 3, 4, 5, 6] 1 1 0 1 1 0 true =
      some (specScan demoPrims [1, 2, 3, 4, 5, 6] 1 1 0 1 1 0 true) :=
  (c1_scan_refines_spec demoPrims [1, 2, 3, 4, 5, 6] 1 1 0 1 1 0 true
    (by norm_num) (by norm_num) (by norm_num)
    (fun _ => ⟨by norm_num, by norm_num⟩) (fun h => Bool.noConfusion h)).2

/-- C2 counterexample: with series `[1,2,3]`, `order = 2`, `start = 0`,
`end = 1` (so `order ≥ 1` and `end > start`), column 1 would be the Python
slice `x[-1:0]`, which is empty; the mismatched column assignment is a
run-time error, so `_create_hankel` does not return a matrix at all. -/
theorem c2_hankel_counterexample :
    _create_hankel [1, 2, 3] 2 0 1 = none := by decide

/-- C2 amended: for every series, every `order ≥ 1` and every `start`, `end`
with `end > start`, provided additionally `start - (order - 1) ≥ 0` and
`end ≤ N` (the spec's own precondition that enough history exists and the
window lies inside the series), `_create_hankel` returns the matrix of shape
`(end-start, order)` whose column `i`, for `i < order`, is the contiguous
slice `series[start-i : end-i]`. -/
theorem c2_hankel_amended (x : List ℚ) (order start end_ : ℤ)
    (h1 : 1 ≤ order) (h2 : start < end_) (h3 : order ≤ start + 1)
    (h4 : end_ ≤ (x.length : ℤ)) :
    ∃ M, _create_hankel x order start end_ = some M ∧
      M.length = order.toNat ∧
      (∀ c ∈ M, c.length = (end_ - start).toNat) ∧
      ∀ i : ℕ, i < order.toNat →
        M.getD i [] = (x.drop (start - (i : ℤ)).toNat).take (end_ - start).toNat := by
  refine ⟨specHankel x order.toNat start end_,
    hankel_eq_spec x order start end_ (by omega) h3 (by omega) h4, ?_, ?_, ?_⟩
  · unfold specHankel
    rw [List.length_map, List.length_range]
  · intro c hc
    unfold specHankel at hc
    rw [List.mem_map] at hc
    obtain ⟨i, hi, rfl⟩ := hc
    rw [List.mem_range] at hi
    rw [List.length_take, List.length_drop]
    omega
  · intro i hi
    unfold specHankel
    rw [List.getD_eq_getElem?_getD, List.getElem?_map, List.getElem?_range hi]
    rfl

/-- C2 witness: the amended Hankel contract evaluated at series
`[1,2,3,4,5]`, `order = 2`, `start = 2`, `end = 4`. -/
theorem c2_hankel_amended_witness :
    ∃ M, _create_hankel [1, 2, 3, 4, 5] 2 2 4 = some M ∧
      M.length = (2 : ℤ).toNat ∧
      (∀ c ∈ M, c.length = ((4 : ℤ) - 2).toNat) ∧
      ∀ i : ℕ, i < (2 : ℤ).toNat →
        M.getD i [] = (([1, 2, 3, 4, 5] : List ℚ).drop ((2 : ℤ) - (i : ℤ)).toNat).take
          ((4 : ℤ) - 2).toNat :=
  c2_hankel_amended [1, 2, 3, 4, 5] 2 2 4 (by norm_num) (by norm_num) (by norm_num)
    (by norm_num)

/-- C3 counterexample: the compiled signature of `_sst_svd` receives
`n_components` as `u1`, so at `n_components = 300` on `300 × 300` correlation
matrices the code uses `300 mod 256 = 44` components; with an SVD primitive
that reports the dimension it was called on as its leading singular value,
the result differs from the claimed `1 - s0` for `s0` the largest singular
value of the full 300-column cross matrix. -/
theorem c3_svd_counterexample :
    _sst_svd dimPrims 300 (fun _ _ => 0) (fun _ _ => 0) 300 ≠
      some (1 - (dimPrims.svd 300 300 (fun a b => ∑ r ∈ Finset.range 300,
        (dimPrims.svd 300 300 (fun _ _ => 0)).1 r a *
          (dimPrims.svd 300 300 (fun _ _ => 0)).1 r b)).2.1 0) := by
  have hdim : ∀ (m n : ℕ) (A : Mat), (dimPrims.svd m n A).2.1 0 = (m : ℚ) :=
    fun _ _ _ => rfl
  have hk : min (((300 : ℤ) % 256)).toNat 300 = 44 := by decide
  unfold _sst_svd
  dsimp only
  rw [hk, if_neg (by norm_num)]
  intro h
  rw [Option.some_inj] at h
  rw [hdim, hdim] at h
  norm_num at h

/-- C3 amended: for `n_components` in `[1, 255]` with `n_components ≤ order`
(the range where the `u1` cast is the identity and the leading columns
exist), `_sst_svd` returns `1 - s0`, where `s0` is the largest singular value
of `Utest^T · Uhist` built from the leading `n_components` left singular
vectors of `Ptest` and `Phist` — that is, exactly the spec's
`SVDStrategy.compare`. -/
theorem c3_svd_amended (pr : Prims) (n : ℕ) (Pt Ph : Mat) (nc : ℤ)
    (h1 : 1 ≤ nc) (h2 : nc ≤ 255) (h3 : nc.toNat ≤ n) :
    _sst_svd pr n Pt Ph nc = some (specSvdCompare pr n Pt Ph nc.toNat) :=
  sst_svd_eq_spec pr n Pt Ph nc h1 h2 h3

/-- C3 witness: the amended SVD strategy contract evaluated at a concrete
primitive instance and `n_components = 2` on `3 × 3` matrices. -/
theorem c3_svd_amended_witness :
    _sst_svd demoPrims 3 (fun _ _ => 0) (fun _ _ => 0) 2 =
      some (specSvdCompare demoPrims 3 (fun _ _ => 0) (fun _ _ => 0) (2 : ℤ).toNat) :=
  c3_svd_amended demoPrims 3 (fun _ _ => 0) (fun _ _ => 0) 2 (by norm_num)
    (by norm_num) (by norm_num)

/-- C4: for every pair of correlation matrices, `n_components ≤ rank` (with
`n_components ≥ 0`, the spec's numerical contract) and every seed,
`_sst_lanczos` runs exactly one power-method iteration on `Ptest` from the
seed to obtain `u`, runs Lanczos tridiagonalisation of `Phist` seeded with
`u` to a `rank × rank` matrix, eigendecomposes it, returns the score
`1 - sum over j < n_components of vec[0,j]^2`, and returns `u` itself,
unperturbed, as the candidate seed. -/
theorem c4_lanczos_strategy (pr : Prims) (n : ℕ) (Pt Ph : Mat) (nc rank : ℤ)
    (x0 : Vec) (h1 : 0 ≤ nc) (h2 : nc ≤ rank) :
    _sst_lanczos pr n Pt Ph nc rank x0 =
      (1 - ∑ j ∈ Finset.range nc.toNat,
          ((pr.eigTridiag rank
            (pr.lanczos n Ph (pr.powerMethod n Pt x0 1).1 rank)).2 0 j) ^ 2,
        (pr.powerMethod n Pt x0 1).1) := by
  rw [sst_lanczos_eq_spec pr n Pt Ph nc rank x0 h1 h2]
  rfl

/-- C4 witness: the Lanczos strategy contract evaluated at a concrete
primitive instance with `n_components = 1`, `rank = 2`. -/
theorem c4_lanczos_strategy_witness :
    _sst_lanczos demoPrims 3 (fun _ _ => 0) (fun _ _ => 0) 1 2 (fun _ => 1) =
      (1 - ∑ j ∈ Finset.range (1 : ℤ).toNat,
          ((demoPrims.eigTridiag 2
            (demoPrims.lanczos 3 (fun _ _ => 0)
              (demoPrims.powerMethod 3 (fun _ _ => 0) (fun _ => 1) 1).1 2)).2 0 j) ^ 2,
        (demoPrims.powerMethod 3 (fun _ _ => 0) (fun _ => 1) 1).1) :=
  c4_lanczos_strategy demoPrims 3 (fun _ _ => 0) (fun _ _ => 0) 1 2 (fun _ => 1)
    (by norm_num) (by norm_num)

/-- C5: for valid inputs and hyperparameters, `_score_offline` succeeds and
returns a sequence of exactly the input's length; every entry at a 0-based
index strictly below `startIdx - 1` is exactly `0`; and when the
hyperparameters make `startIdx > N + 1` the whole result is the all-zero
sequence of length `N`, with no error raised. -/
theorem c5_output_shape (pr : Prims) (x : List ℚ) (order win lag nc rank : ℤ)
    (eps : ℚ) (ul : Bool)
    (hord : 0 ≤ order) (hwin : 0 ≤ win) (hlag : 0 ≤ lag)
    (hlan : ul = true → 0 ≤ nc ∧ nc ≤ rank)
    (hsvd : ul = false → 1 ≤ nc ∧ nc ≤ 255 ∧ nc ≤ order) :
    ∃ s, _score_offline pr x order win lag nc rank eps ul = some s ∧
      s.length = x.length ∧
      (∀ i : ℕ, i < x.length → (i : ℤ) < win + order + lag → s[i]? = some 0) ∧
      ((x.length : ℤ) + 1 < win + order + lag + 1 →
        s = List.replicate x.length 0) :=
  ⟨specScan pr x order win lag nc rank eps ul,
   score_offline_eq_specScan pr x order win lag nc rank eps ul hord hwin hlag hlan hsvd,
   specScan_length pr x order win lag nc rank eps ul,
   fun i h1 h2 => specScan_early_zero pr x order win lag nc rank eps ul i h2 h1,
   fun h => specScan_all_zero pr x order win lag nc rank eps ul h⟩

/-- C5 witness: the output-shape property evaluated at a concrete series of
length 6 (where `startIdx = 3`) on the Lanczos path. -/
theorem c5_output_shape_witness :
    ∃ s, _score_offline demoPrims [1, 2, 3, 4, 5, 6] 1 1 0 1 1 0 true = some s ∧
      s.length = ([1, 2, 3, 4, 5, 6] : List ℚ).length ∧
      (∀ i : ℕ, i < ([1, 2, 3, 4, 5, 6] : List ℚ).length →
        (i : ℤ) < 1 + 1 + 0 → s[i]? = some 0) ∧
      ((([1, 2, 3, 4, 5, 6] : List ℚ).length : ℤ) + 1 < 1 + 1 + 0 + 1 →
        s = List.replicate ([1, 2, 3, 4, 5, 6] : List ℚ).length 0) :=
  c5_output_shape demoPrims [1, 2, 3, 4, 5, 6] 1 1 0 1 1 0 true (by norm_num)
    (by norm_num) (by norm_num) (fun _ => ⟨by norm_num, by norm_num⟩)
    (fun h => Bool.noConfusion h)

/-- C6: for every scan index `t` with `startIdx ≤ t ≤ N`, both Hankel-builder
invocations of the loop body satisfy the precondition `start - order ≥ 0`
(the history call has `start - windowLength - lag = order + 1` at the
earliest index), and both calls succeed, so the fatal indexing error for
insufficient preceding history is unreachable during a scan. -/
theorem c6_hankel_precondition (x : List ℚ) (order win lag t : ℤ)
    (hord : 0 ≤ order) (hwin : 0 ≤ win) (hlag : 0 ≤ lag)
    (ht1 : win + order + lag + 1 ≤ t) (ht2 : t ≤ (x.length : ℤ)) :
    0 ≤ (t - win - lag) - order ∧ 0 ≤ (t - win) - order ∧
      (t = win + order + lag + 1 → t - win - lag = order + 1) ∧
      (_create_hankel x order (t - win - lag) (t - lag)).isSome = true ∧
      (_create_hankel x order (t - win) t).isSome = true := by
  refine ⟨by omega, by omega, by omega, ?_, ?_⟩
  · rw [hankel_eq_spec x order (t - win - lag) (t - lag) hord (by omega) (by omega)
      (by omega)]
    rfl
  · rw [hankel_eq_spec x order (t - win) t hord (by omega) (by omega) (by omega)]
    rfl

/-- C6 witness: the precondition facts at the earliest scan index `t = 3` of
a length-6 series with `windowLength = order = 1`, `lag = 0`. -/
theorem c6_hankel_precondition_witness :
    0 ≤ ((3 : ℤ) - 1 - 0) - 1 ∧ 0 ≤ ((3 : ℤ) - 1) - 1 ∧
      ((3 : ℤ) = 1 + 1 + 0 + 1 → (3 : ℤ) - 1 - 0 = 1 + 1) ∧
      (_create_hankel [1, 2, 3, 4, 5, 6] 1 ((3 : ℤ) - 1 - 0) ((3 : ℤ) - 0)).isSome
        = true ∧
      (_create_hankel [1, 2, 3, 4, 5, 6] 1 ((3 : ℤ) - 1) 3).isSome = true :=
  c6_hankel_precondition [1, 2, 3, 4, 5, 6] 1 1 0 3 (by norm_num) (by norm_num)
    (by norm_num) (by norm_num) (by norm_num)

/-- C7: the facade raises a validation error, before any rescaling or scoring
computation, exactly when the input is not a 1-dimensional numpy array or one
of the five integer hyperparameters (`win_length`, `n_components` and the
resolved `order`, `lag`, `rank_lanczos`) is not an `int`; when the checks
pass it goes straight to rescaling and the core scan, with no further
validation. -/
theorem c7_validation (pr : Prims) (c : SSTConfig) (x : NpInput) :
    (score_offline pr c x = .error () ↔
      ¬(x.isNdarray = true ∧ x.ndim = 1 ∧ c.win_length.isInt = true ∧
        c.n_components.isInt = true ∧ (resolveOrder c).isInt = true ∧
        (resolveLag c).isInt = true ∧ (resolveRank c).isInt = true)) ∧
    ∀ _ : validArgs c x = true,
      score_offline pr c x = .ok (_score_offline pr (minMaxScale x.data)
        (resolveOrder c).toInt c.win_length.toInt (resolveLag c).toInt
        c.n_components.toInt (resolveRank c).toInt c.eps c.use_lanczos) := by
  constructor
  · by_cases h : validArgs c x = true
    · unfold score_offline
      rw [if_pos h]
      constructor
      · intro habs
        exact Except.noConfusion habs
      · intro hn
        exact absurd ((validArgs_iff c x).mp h) hn
    · unfold score_offline
      rw [if_neg h]
      constructor
      · intro _
        exact fun hp => h ((validArgs_iff c x).mpr hp)
      · intro _
        rfl
  · intro h
    unfold score_offline
    rw [if_pos h]

/-- C7 witness: a passing configuration (all-`int` hyperparameters, 1-d
array) and the resulting delegation, with each validation hypothesis
discharged on concrete data. -/
theorem c7_validation_witness :
    validArgs ⟨.pyInt 2, .pyInt 1, some (.pyInt 1), some (.pyInt 0), true,
        some (.pyInt 1), 0⟩ ⟨true, 1, [1, 2, 3, 4, 5, 6]⟩ = true ∧
      score_offline demoPrims ⟨.pyInt 2, .pyInt 1, some (.pyInt 1), some (.pyInt 0),
          true, some (.pyInt 1), 0⟩ ⟨true, 1, [1, 2, 3, 4, 5, 6]⟩ =
        .ok (_score_offline demoPrims
          (minMaxScale [1, 2, 3, 4, 5, 6])
          (resolveOrder ⟨.pyInt 2, .pyInt 1, some (.pyInt 1), some (.pyInt 0), true,
            some (.pyInt 1), 0⟩).toInt
          (PyScalar.pyInt 2).toInt
          (resolveLag ⟨.pyInt 2, .pyInt 1, some (.pyInt 1), some (.pyInt 0), true,
            some (.pyInt 1), 0⟩).toInt
          (PyScalar.pyInt 1).toInt
          (resolveRank ⟨.pyInt 2, .pyInt 1, some (.pyInt 1), some (.pyInt 0), true,
            some (.pyInt 1), 0⟩).toInt
          0 true) :=
  ⟨by decide,
   (c7_validation demoPrims ⟨.pyInt 2, .pyInt 1, some (.pyInt 1), some (.pyInt 0),
      true, some (.pyInt 1), 0⟩ ⟨true, 1, [1, 2, 3, 4, 5, 6]⟩).2 (by decide)⟩

/-- C8: when `order`, `lag` or `rank_lanczos` are left unset, the facade
resolves them by rule of thumb before scoring: `order = win_length`;
`lag = order // 2` (Python floor division, on an integer `order` the integer
floor of the half); `rank_lanczos = 2 * n_components` when `n_components` is
even and `2 * n_components - 1` when it is odd. -/
theorem c8_defaults (c : SSTConfig) :
    (c.order = none → resolveOrder c = c.win_length) ∧
    (c.lag = none → resolveLag c = pyHalf (resolveOrder c)) ∧
    (∀ m : ℤ, pyHalf (PyScalar.pyInt m) = PyScalar.pyInt (Int.fdiv m 2)) ∧
    (c.rank_lanczos = none → ∀ m : ℤ, c.n_components = PyScalar.pyInt m →
      resolveRank c = PyScalar.pyInt (if m % 2 = 0 then 2 * m else 2 * m - 1)) := by
  refine ⟨?_, ?_, fun m => rfl, ?_⟩
  · intro h
    unfold resolveOrder
    rw [h]
    rfl
  · intro h
    unfold resolveLag
    rw [h]
    rfl
  · intro h m hm
    unfold resolveRank
    rw [h, hm]
    simp only [Option.getD_none]
    unfold pyEqZero pyMod2 pyMulInt pySubInt
    by_cases hm2 : m % 2 = 0 <;> simp [hm2]

/-- C8 witness: the rule-of-thumb defaults at `win_length = 5` and at both
parities of `n_components`, all hyperparameters unset. -/
theorem c8_defaults_witness :
    (resolveOrder ⟨.pyInt 5, .pyInt 3, none, none, true, none, 0⟩ = .pyInt 5) ∧
      (resolveLag ⟨.pyInt 5, .pyInt 3, none, none, true, none, 0⟩ =
        pyHalf (resolveOrder ⟨.pyInt 5, .pyInt 3, none, none, true, none, 0⟩)) ∧
      pyHalf (PyScalar.pyInt 5) = PyScalar.pyInt (Int.fdiv 5 2) ∧
      resolveRank ⟨.pyInt 5, .pyInt 3, none, none, true, none, 0⟩ =
        PyScalar.pyInt (if (3 : ℤ) % 2 = 0 then 2 * 3 else 2 * 3 - 1) :=
  ⟨(c8_defaults ⟨.pyInt 5, .pyInt 3, none, none, true, none, 0⟩).1 rfl,
   (c8_defaults ⟨.pyInt 5, .pyInt 3, none, none, true, none, 0⟩).2.1 rfl,
   (c8_defaults ⟨.pyInt 5, .pyInt 3, none, none, true, none, 0⟩).2.2.1 5,
   (c8_defaults ⟨.pyInt 5, .pyInt 3, none, none, true, none, 0⟩).2.2.2 rfl 3 rfl⟩

/-- C9: under the spec's contracts for the numeric collaborators (orthonormal
singular and eigenvector systems with a nonnegative leading singular value
attained as a bilinear value at unit vectors), every score produced by the
SVD strategy and every score produced by the Lanczos strategy lies in
`[0, 1]`, and consequently every entry of a successfully returned score
sequence lies in `[0, 1]`. -/
theorem c9_scores_in_unit (pr : Prims) (hc : SvdContract pr) (he : EigContract pr)
    (x : List ℚ) (order win lag nc rank : ℤ) (eps : ℚ) (ul : Bool) (s : List ℚ)
    (h : _score_offline pr x order win lag nc rank eps ul = some s) :
    (∀ (n : ℕ) (Pt Ph : Mat) (sc : ℚ),
      _sst_svd pr n Pt Ph nc = some sc → 0 ≤ sc ∧ sc ≤ 1) ∧
    (∀ (n : ℕ) (Pt Ph : Mat) (x0 : Vec),
      0 ≤ (_sst_lanczos pr n Pt Ph nc rank x0).1 ∧
        (_sst_lanczos pr n Pt Ph nc rank x0).1 ≤ 1) ∧
    ∀ v ∈ s, 0 ≤ v ∧ v ≤ 1 :=
  ⟨fun n Pt Ph sc hsc => sst_svd_bounds pr hc n Pt Ph nc sc hsc,
   fun n Pt Ph x0 => sst_lanczos_bounds pr he n Pt Ph nc rank x0,
   score_offline_bounds pr hc he x order win lag nc rank eps ul s h⟩

/-- C9 witness: the contracts hold for a concrete primitive instance, and the
score-range property follows for a concrete successful scan. -/
theorem c9_scores_in_unit_witness :
    SvdContract demoPrims ∧ EigContract demoPrims ∧
      ((∀ (n : ℕ) (Pt Ph : Mat) (sc : ℚ),
          _sst_svd demoPrims n Pt Ph 1 = some sc → 0 ≤ sc ∧ sc ≤ 1) ∧
       (∀ (n : ℕ) (Pt Ph : Mat) (x0 : Vec),
          0 ≤ (_sst_lanczos demoPrims n Pt Ph 1 1 x0).1 ∧
            (_sst_lanczos demoPrims n Pt Ph 1 1 x0).1 ≤ 1) ∧
       ∀ v ∈ specScan demoPrims [1, 2, 3, 4, 5, 6] 1 1 0 1 1 0 true,
         0 ≤ v ∧ v ≤ 1) :=
  ⟨demoPrims_svd_contract, demoPrims_eig_contract,
   c9_scores_in_unit demoPrims demoPrims_svd_contract demoPrims_eig_contract
     [1, 2, 3, 4, 5, 6] 1 1 0 1 1 0 true
     (specScan demoPrims [1, 2, 3, 4, 5, 6] 1 1 0 1 1 0 true)
     (score_offline_eq_specScan demoPrims [1, 2, 3, 4, 5, 6] 1 1 0 1 1 0 true
       (by norm_num) (by norm_num) (by norm_num)
       (fun _ => ⟨by norm_num, by norm_num⟩) (fun h => Bool.noConfusion h))⟩

/-- C10: the compiled signature of `_sst_svd` receives `n_components` as an
unsigned 8-bit integer, so for any caller-supplied value the SVD path
computes with `n_components` reduced modulo 256, and for every value in
`[0, 255]` the reduction is the identity. -/
theorem c10_u1_cast (pr : Prims) (n : ℕ) (Pt Ph : Mat) (nc : ℤ) :
    _sst_svd pr n Pt Ph nc = _sst_svd pr n Pt Ph (nc % 256) ∧
      (0 ≤ nc → nc ≤ 255 → nc % 256 = nc) := by
  constructor
  · unfold _sst_svd
    have hmm : nc % 256 % 256 = nc % 256 := by omega
    rw [hmm]
  · intro h1 h2
    omega

/-- C10 witness: modulo-256 invariance at `n_components = 300` and identity
at `n_components = 44`. -/
theorem c10_u1_cast_witness :
    (0 ≤ (44 : ℤ) ∧ (44 : ℤ) ≤ 255 ∧ (44 : ℤ) % 256 = 44) ∧
      _sst_svd demoPrims 3 (fun _ _ => 0) (fun _ _ => 0) 300 =
        _sst_svd demoPrims 3 (fun _ _ => 0) (fun _ _ => 0) (300 % 256) :=
  ⟨⟨by norm_num, by norm_num,
    (c10_u1_cast demoPrims 3 (fun _ _ => 0) (fun _ _ => 0) 44).2 (by norm_num)
      (by norm_num)⟩,
   (c10_u1_cast demoPrims 3 (fun _ _ => 0) (fun _ _ => 0) 300).1⟩

end SST
